import Mathlib

/-!
Verification of the directory/file serving subsystem of the `goh` library
(`goh.go`): path resolution, traversal rejection, filter-based access
control, and the optional-serve protocol.

Strings from the Go source are modelled as `List Char` (`GoStr`); the
helpers of Go's `strings` and `path/filepath` packages that the source
calls are modelled below for a Unix host (path separator `/`,
`filepath.ToSlash` the identity). The filesystem is an abstract map from
paths to entries, and the `http.ResponseWriter` sink is a state value
recording the header map, the first written status and the body chunks.
-/

namespace Goh

/-- Go strings, modelled as lists of characters. -/
abbrev GoStr := List Char

/-- `strings.TrimPrefix(s, pre)`: `s` without `pre` when `pre` leads `s`,
otherwise `s` unchanged (strips at most one occurrence). -/
def TrimPrefix (s pre : GoStr) : GoStr :=
  if pre.isPrefixOf s then s.drop pre.length else s

/-- `strings.HasSuffix(s, suffix)`. -/
def HasSuffix (s suf : GoStr) : Bool :=
  suf.isSuffixOf s

/-- `strings.Contains(s, substr)`: whether `substr` occurs anywhere in `s`. -/
def Contains : GoStr → GoStr → Bool
  | [], pat => pat.isEmpty
  | c :: rest, pat => pat.isPrefixOf (c :: rest) || Contains rest pat

/-- The parent-traversal token `..`. -/
def dd : GoStr := ['.', '.']

/-- Whether a path begins with the separator (a rooted / absolute path). -/
def isRooted : GoStr → Bool
  | [] => false
  | c :: _ => c = '/'

/-- Split a path on the separator, keeping empty fields, as
`strings.Split(s, "/")` does. -/
def splitSegs : GoStr → List GoStr
  | [] => [[]]
  | c :: rest =>
    if c = '/' then [] :: splitSegs rest
    else
      match splitSegs rest with
      | s :: ss => (c :: s) :: ss
      | [] => [[c]]

/-- A field kept by lexical cleaning: not empty and not the `.` segment. -/
def segKeep (seg : GoStr) : Bool :=
  !seg.isEmpty && seg ≠ ['.']

/-- The meaningful segments of a path: split on `/`, empty and `.` fields
dropped (the skip cases of `filepath.Clean`). -/
def fsegs (s : GoStr) : List GoStr :=
  (splitSegs s).filter segKeep

/-- The backtracking loop of `filepath.Clean` over the kept segments: a
`..` pops the last output segment; at the top it is dropped when rooted and
kept when not (accumulating leading `..`s). -/
def popSegs (rooted : Bool) : List GoStr → List GoStr → List GoStr
  | acc, [] => acc
  | acc, seg :: rest =>
    if seg = dd then
      if rooted then popSegs rooted acc.dropLast rest
      else if acc = [] ∨ acc.getLast? = some dd then popSegs rooted (acc ++ [dd]) rest
      else popSegs rooted acc.dropLast rest
    else popSegs rooted (acc ++ [seg]) rest

/-- Join segments with the separator. -/
def interSegs : List GoStr → GoStr
  | [] => []
  | [s] => s
  | s :: ss => s ++ '/' :: interSegs ss

/-- Rebuild the cleaned path from its segments: a leading separator when
rooted, and `.` for an empty unrooted result, as `filepath.Clean` returns. -/
def renderPath (rooted : Bool) (segs : List GoStr) : GoStr :=
  if rooted then '/' :: interSegs segs
  else if segs = [] then ['.'] else interSegs segs

/-- `filepath.Clean` on a Unix host: empty becomes `.`; otherwise the kept
segments after `..`-backtracking, rendered with single separators. -/
def cleanPath (s : GoStr) : GoStr :=
  if s = [] then ['.']
  else renderPath (isRooted s) (popSegs (isRooted s) [] (fsegs s))

/-- `filepath.Join(a, b)` on a Unix host: empty elements are skipped and
the separator-joined remainder is cleaned; all-empty input yields the empty
path. -/
def joinPath (a b : GoStr) : GoStr :=
  if a = [] then (if b = [] then [] else cleanPath b)
  else cleanPath (a ++ '/' :: b)

/-- `filepath.ToSlash` on a Unix host, where the separator already is `/`:
the identity. -/
def toSlash (s : GoStr) : GoStr := s

/-- The cleaned segment list of a path (its normal form, rootedness apart). -/
def cleanSegs (s : GoStr) : List GoStr :=
  popSegs (isRooted s) [] (fsegs s)

/-- `p` lies in the directory tree of `root`: same rootedness, and the
cleaned segments of `root` lead the cleaned segments of `p`. -/
def underRoot (root p : GoStr) : Bool :=
  (isRooted p == isRooted root) && (cleanSegs root).isPrefixOf (cleanSegs p)

/-- A well-formed cleaned segment: non-empty, free of the separator, and
not the `.` segment. Every segment `cleanPath` renders is of this shape. -/
def wfSeg (seg : GoStr) : Prop :=
  seg ≠ [] ∧ '/' ∉ seg ∧ seg ≠ ['.']

/-- A segment list in the normal form `popSegs` produces: leading `..`s
(none when rooted) followed by `..`-free segments. -/
def NormSegs (r : Bool) (segs : List GoStr) : Prop :=
  ∃ k rest, segs = List.replicate k dd ++ rest ∧ dd ∉ rest ∧ (r = true → k = 0)

/-- A filesystem entry as `os.Stat` reports it for the model: a regular
file with contents, or a directory. -/
inductive Entry where
  | file (contents : GoStr)
  | dir
deriving DecidableEq

/-- The filesystem: a map from paths to entries (`none`: no entry). -/
abbrev FS := GoStr → Option Entry

/-- `fileExists` of `goh.go`: false for the empty path without consulting
the filesystem; otherwise true iff an entry exists and is not a directory. -/
def fileExists (fs : FS) (path : GoStr) : Bool :=
  if path = [] then false
  else
    match fs path with
    | some (Entry.file _) => true
    | _ => false

/-- The response-writer sink: the header map, the first status written (Go
ignores superfluous `WriteHeader` calls), and the body chunks in order. -/
structure RW where
  header : List (String × List String)
  status : Option Nat
  body : List GoStr
deriving DecidableEq

/-- `rew.WriteHeader(s)`: records the first status only. -/
def RW.writeHeader (rw : RW) (s : Nat) : RW :=
  match rw.status with
  | some _ => rw
  | none => { rw with status := some s }

/-- `rew.Write(chunk)`: an implicit 200 when no status was written yet,
then the chunk appended to the body. -/
def RW.write (rw : RW) (chunk : GoStr) : RW :=
  { rw.writeHeader 200 with body := rw.body ++ [chunk] }

/-- `http.Header` update `h[key] = vals` (replace or add the key). -/
def headerSet (h : List (String × List String)) (key : String) (vals : List String) :
    List (String × List String) :=
  if h.any (fun e => e.1 == key) then
    h.map (fun e => if e.1 == key then (key, vals) else e)
  else h ++ [(key, vals)]

/-- `http.Header.Get`: the first value of the key, or the empty string. -/
def headerGet (h : List (String × List String)) (key : String) : String :=
  match h.find? (fun e => e.1 == key) with
  | some (_, v :: _) => v
  | _ => ""

/-- `goh.MutateHeader(tar, src)`: every key of `src` written into `tar`. -/
def MutateHeader (tar src : List (String × List String)) : List (String × List String) :=
  src.foldl (fun acc e => headerSet acc e.1 e.2) tar

/-- `headSetOpt` of `goh.go`: set the key only when it has no value yet. -/
def headSetOpt (head : List (String × List String)) (key val : String) :
    List (String × List String) :=
  if headerGet head key ≠ "" then head else headerSet head key [val]

/-- The internal `writeHead` record of `goh.go`. -/
structure writeHead where
  status : Nat
  head : List (String × List String)
  conType : String
  conLen : Nat
  hasConLen : Bool

/-- `writeHead.run`: merge the configured header, set the optional
content-type and content-length, and write the status only when it is
neither 0 nor 200 (200 is implicit, and writing it would suppress default
headers downstream). -/
def writeHead.run (self : writeHead) (rw : RW) : RW :=
  let tar := MutateHeader rw.header self.head
  let tar := if self.conType ≠ "" then headSetOpt tar "Content-Type" self.conType else tar
  let tar := if self.hasConLen then headSetOpt tar "Content-Length" (toString self.conLen) else tar
  let rw1 : RW := { rw with header := tar }
  if self.status ≠ 0 ∧ self.status ≠ 200 then rw1.writeHeader self.status else rw1

/-- `goh.NotFound.ServeHTTP`: write status 404 and nothing else. -/
def NotFound.ServeHTTP (rw : RW) : RW :=
  rw.writeHeader 404

/-- Model of the external platform primitive `http.ServeFile` as the
source uses it (only ever called on a path whose entry is a regular file):
the implicit 200 status when none was written yet, then the file's full
contents; on a missing or directory entry the primitive's own not-found
answer (status and an error body). -/
def serveFile (fs : FS) (path : GoStr) (rw : RW) : RW :=
  match fs path with
  | some (Entry.file contents) => (rw.writeHeader 200).write contents
  | _ => (rw.writeHeader 404).write ("404 page not found".data)

/-- The `goh.File` descriptor (the error callback is never read by the
serving path and is left out of the model). -/
structure File where
  Status : Nat
  Header : List (String × List String)
  Path : GoStr
deriving DecidableEq

/-- `File.Exists`: a file exists at `.Path`. -/
def File.Exists (self : File) (fs : FS) : Bool :=
  fileExists fs self.Path

/-- `File.ServeHTTP`: when the file exists, run `writeHead` with the
configured status and header and delegate to `http.ServeFile`; otherwise
answer through `goh.NotFound`. -/
def File.ServeHTTP (self : File) (fs : FS) (rw : RW) : RW :=
  if self.Exists fs then
    serveFile fs self.Path (writeHead.run ⟨self.Status, self.Header, "", 0, false⟩ rw)
  else NotFound.ServeHTTP rw

/-- `File.ServedHTTP`: serve and report true when the file exists,
otherwise report false leaving the sink untouched. -/
def File.ServedHTTP (self : File) (fs : FS) (rw : RW) : RW × Bool :=
  if self.Exists fs then (self.ServeHTTP fs rw, true) else (rw, false)

/-- `File.HanOpt`: the descriptor itself when the file exists, else nil. -/
def File.HanOpt (self : File) (fs : FS) : Option File :=
  if self.Exists fs then some self else none

/-- The handlers a `goh.Dir` hands out: a file descriptor or the
`goh.NotFound` responder. -/
inductive Handler where
  | file (f : File)
  | notFound
deriving DecidableEq

/-- Rendering a handed-out handler to the sink. -/
def Handler.ServeHTTP : Handler → FS → RW → RW
  | .file f, fs, rw => f.ServeHTTP fs rw
  | .notFound, _, rw => NotFound.ServeHTTP rw

/-- The `goh.Dir` descriptor. The filter is an optional predicate (Go's
nilable `Filter` interface value); `goh.AllowDirs` below is one instance. -/
structure Dir where
  Status : Nat
  Header : List (String × List String)
  Path : GoStr
  Filter : Option (GoStr → Bool)

/-- The incoming request: its URL path component. -/
structure Request where
  urlPath : GoStr

/-- `Dir.Allow`: a nil filter allows everything; otherwise the filter
judges the slash-form of the path. -/
def Dir.Allow (self : Dir) (path : GoStr) : Bool :=
  match self.Filter with
  | some f => f (toSlash path)
  | none => true

/-- `Dir.File`: a file descriptor at the path, carrying the directory's
configured status and header. -/
def Dir.File (self : Dir) (path : GoStr) : File :=
  ⟨self.Status, self.Header, path⟩

/-- `Dir.Resolve`: strip one leading separator; reject (empty-path
sentinel) on a `..` occurrence or a trailing separator; join with the
root; reject when the filter disallows; else the descriptor at the joined
path. -/
def Dir.Resolve (self : Dir) (req : Request) : Goh.File :=
  let reqPath := TrimPrefix req.urlPath ['/']
  if Contains reqPath dd || HasSuffix reqPath ['/'] then self.File []
  else
    let filePath := joinPath self.Path reqPath
    if !(self.Allow filePath) then self.File []
    else self.File filePath

/-- `Dir.ServeHTTP`: resolve and serve. -/
def Dir.ServeHTTP (self : Dir) (fs : FS) (req : Request) (rw : RW) : RW :=
  (self.Resolve req).ServeHTTP fs rw

/-- `Dir.ServedHTTP`: resolve and try to serve. -/
def Dir.ServedHTTP (self : Dir) (fs : FS) (req : Request) (rw : RW) : RW × Bool :=
  (self.Resolve req).ServedHTTP fs rw

/-- `Dir.HanOpt`: the resolved descriptor when its file exists, else nil. -/
def Dir.HanOpt (self : Dir) (fs : FS) (req : Request) : Option Goh.File :=
  (self.Resolve req).HanOpt fs

/-- `Dir.Han`: the optional handler when present, else the `goh.NotFound`
responder; the `Option` models Go's nilable interface value, and `Han`
never returns the nil one. -/
def Dir.Han (self : Dir) (fs : FS) (req : Request) : Option Handler :=
  match self.HanOpt fs req with
  | some f => some (Handler.file f)
  | none => some Handler.notFound

/-- `isSubpath(sup, sub)` of `goh.go`: `sub` begins with `sup` and the
next character is the separator. -/
def isSubpath (sup sub : GoStr) : Bool :=
  sup.isPrefixOf sub && ['/'].isPrefixOf (sub.drop sup.length)

/-- `AllowDirs.Allow`: some listed directory contains the path. -/
def AllowDirs.Allow (self : List GoStr) (val : GoStr) : Bool :=
  self.any (fun dir => isSubpath dir val)

/-! ### Segment splitting and joining -/

theorem interSegs_cons (s : GoStr) {ss : List GoStr} (h : ss ≠ []) :
    interSegs (s :: ss) = s ++ '/' :: interSegs ss := by
  cases ss with
  | nil => exact absurd rfl h
  | cons t ts => rfl

theorem interSegs_append {ss ys : List GoStr} (h1 : ss ≠ []) (h2 : ys ≠ []) :
    interSegs (ss ++ ys) = interSegs ss ++ '/' :: interSegs ys := by
  induction ss with
  | nil => exact absurd rfl h1
  | cons s ts ih =>
    cases ts with
    | nil => simp [interSegs, interSegs_cons s h2]
    | cons t ts2 =>
      rw [List.cons_append, interSegs_cons s (by simp), interSegs_cons s (by simp),
        ih (by simp)]
      simp

theorem splitSegs_ne_nil (s : GoStr) : splitSegs s ≠ [] := by
  cases s with
  | nil => simp [splitSegs]
  | cons c rest =>
    simp only [splitSegs]
    split
    · simp
    · split <;> simp

theorem splitSegs_append (a b : GoStr) :
    splitSegs (a ++ '/' :: b) = splitSegs a ++ splitSegs b := by
  induction a with
  | nil => simp [splitSegs]
  | cons c rest ih =>
    by_cases hc : c = '/'
    · subst hc
      simp [splitSegs, ih]
    · obtain ⟨hd, tl, hsplit⟩ := List.exists_cons_of_ne_nil (splitSegs_ne_nil rest)
      simp only [List.cons_append, splitSegs, hc, if_false, List.append_eq, ih, hsplit]

theorem fsegs_append (a b : GoStr) : fsegs (a ++ '/' :: b) = fsegs a ++ fsegs b := by
  simp [fsegs, splitSegs_append, List.filter_append]

theorem splitSegs_no_slash {s : GoStr} (h : '/' ∉ s) : splitSegs s = [s] := by
  induction s with
  | nil => rfl
  | cons c rest ih =>
    have hc : c ≠ '/' := fun hh => h (hh ▸ List.mem_cons_self c rest)
    have hr : '/' ∉ rest := fun hh => h (List.mem_cons_of_mem c hh)
    simp [splitSegs, hc, ih hr]

theorem mem_splitSegs_no_slash {s seg : GoStr} (h : seg ∈ splitSegs s) : '/' ∉ seg := by
  induction s generalizing seg with
  | nil =>
    simp [splitSegs] at h
    simp [h]
  | cons c rest ih =>
    by_cases hc : c = '/'
    · subst hc
      simp [splitSegs] at h
      rcases h with h | h
      · simp [h]
      · exact ih h
    · obtain ⟨hd, tl, hsplit⟩ := List.exists_cons_of_ne_nil (splitSegs_ne_nil rest)
      simp [splitSegs, hc, hsplit] at h
      rcases h with h | h
      · subst h
        intro hmem
        rcases List.mem_cons.mp hmem with h1 | h1
        · exact hc h1.symm
        · exact ih (hsplit ▸ List.mem_cons_self hd tl) h1
      · exact ih (hsplit ▸ List.mem_cons_of_mem hd h)

theorem mem_fsegs_wf {s seg : GoStr} (h : seg ∈ fsegs s) : wfSeg seg := by
  have hmem : seg ∈ splitSegs s := List.mem_of_mem_filter h
  have hkeep : segKeep seg = true := List.of_mem_filter h
  simp only [segKeep, Bool.and_eq_true, Bool.not_eq_true', List.isEmpty_eq_false,
    decide_eq_true_eq] at hkeep
  exact ⟨hkeep.1, mem_splitSegs_no_slash hmem, hkeep.2⟩

/-! ### Substring containment versus split segments -/

theorem Contains_of_isPrefixOf {s pat : GoStr} (h : pat <+: s) : Contains s pat = true := by
  cases s with
  | nil =>
    have hp : pat = [] := List.prefix_nil.mp h
    simp [Contains, hp]
  | cons c rest => simp [Contains, List.isPrefixOf_iff_prefix, h]

theorem Contains_of_isInfix {s pat : GoStr} (h : pat <:+: s) : Contains s pat = true := by
  obtain ⟨t, u, htu⟩ := h
  induction t generalizing s with
  | nil =>
    subst htu
    exact Contains_of_isPrefixOf (by simp)
  | cons c t2 ih =>
    subst htu
    have hrec : Contains (t2 ++ pat ++ u) pat = true := ih rfl
    rw [List.append_assoc] at hrec
    simp [Contains]
    exact Or.inr hrec

theorem splitSegs_head_tail (s : GoStr) :
    ∃ hd tl, splitSegs s = hd :: tl ∧ hd <+: s ∧ ∀ seg ∈ tl, seg <:+: s := by
  induction s with
  | nil => exact ⟨[], [], rfl, List.nil_prefix, by simp⟩
  | cons c rest ih =>
    obtain ⟨hd, tl, hsplit, hpre, htl⟩ := ih
    by_cases hc : c = '/'
    · subst hc
      refine ⟨[], splitSegs rest, by simp [splitSegs], List.nil_prefix, ?_⟩
      intro seg hseg
      rw [hsplit] at hseg
      rcases List.mem_cons.mp hseg with h1 | h1
      · exact h1 ▸ List.infix_cons hpre.isInfix
      · exact List.infix_cons (htl seg h1)
    · refine ⟨c :: hd, tl, by simp [splitSegs, hc, hsplit], ?_, ?_⟩
      · exact List.cons_prefix_cons.mpr ⟨rfl, hpre⟩
      · exact fun seg hseg => List.infix_cons (htl seg hseg)

theorem isInfix_of_mem_splitSegs {s seg : GoStr} (h : seg ∈ splitSegs s) : seg <:+: s := by
  obtain ⟨hd, tl, hsplit, hpre, htl⟩ := splitSegs_head_tail s
  rw [hsplit] at h
  rcases List.mem_cons.mp h with h1 | h1
  · exact h1 ▸ hpre.isInfix
  · exact htl seg h1

theorem dd_not_mem_fsegs {s : GoStr} (h : Contains s dd = false) : dd ∉ fsegs s := by
  intro hdd
  have hc : Contains s dd = true :=
    Contains_of_isInfix (isInfix_of_mem_splitSegs (List.mem_of_mem_filter hdd))
  rw [h] at hc
  exact Bool.false_ne_true hc

/-! ### The backtracking loop -/

theorem popSegs_nil (r : Bool) (acc : List GoStr) : popSegs r acc [] = acc := rfl

theorem popSegs_append (r : Bool) (xs ys : List GoStr) :
    ∀ acc, popSegs r acc (xs ++ ys) = popSegs r (popSegs r acc xs) ys := by
  induction xs with
  | nil => intro acc; rfl
  | cons seg rest ih =>
    intro acc
    simp only [List.cons_append, popSegs]
    split_ifs <;> exact ih _

theorem popSegs_no_dd (r : Bool) {ys : List GoStr} (h : dd ∉ ys) :
    ∀ acc, popSegs r acc ys = acc ++ ys := by
  induction ys with
  | nil => intro acc; simp [popSegs]
  | cons seg rest ih =>
    intro acc
    have hs : seg ≠ dd := fun he => h (he ▸ List.mem_cons_self seg rest)
    have hr : dd ∉ rest := fun hm => h (List.mem_cons_of_mem seg hm)
    simp [popSegs, hs, ih hr]

theorem mem_popSegs {r : Bool} {xs : List GoStr} {seg : GoStr} :
    ∀ {acc}, seg ∈ popSegs r acc xs → seg ∈ acc ∨ seg ∈ xs ∨ seg = dd := by
  induction xs with
  | nil =>
    intro acc h
    exact Or.inl h
  | cons s rest ih =>
    intro acc h
    simp only [popSegs] at h
    split_ifs at h with h1 h2 h3
    · rcases ih h with hm | hm | hm
      · exact Or.inl (List.dropLast_subset acc hm)
      · exact Or.inr (Or.inl (List.mem_cons_of_mem s hm))
      · exact Or.inr (Or.inr hm)
    · rcases ih h with hm | hm | hm
      · rcases List.mem_append.mp hm with hm2 | hm2
        · exact Or.inl hm2
        · exact Or.inr (Or.inr (List.mem_singleton.mp hm2))
      · exact Or.inr (Or.inl (List.mem_cons_of_mem s hm))
      · exact Or.inr (Or.inr hm)
    · rcases ih h with hm | hm | hm
      · exact Or.inl (List.dropLast_subset acc hm)
      · exact Or.inr (Or.inl (List.mem_cons_of_mem s hm))
      · exact Or.inr (Or.inr hm)
    · rcases ih h with hm | hm | hm
      · rcases List.mem_append.mp hm with hm2 | hm2
        · exact Or.inl hm2
        · exact Or.inr (Or.inl (List.mem_singleton.mp hm2 ▸ List.mem_cons_self s rest))
      · exact Or.inr (Or.inl (List.mem_cons_of_mem s hm))
      · exact Or.inr (Or.inr hm)

/-! ### Normal forms of the backtracking loop -/

theorem normSegs_nil (r : Bool) : NormSegs r [] :=
  ⟨0, [], rfl, by simp, fun _ => rfl⟩

theorem getLast?_replicate_dd (k : Nat) : (List.replicate (k + 1) dd).getLast? = some dd := by
  simp [List.getLast?_replicate]

theorem normSegs_popSegs (r : Bool) (xs : List GoStr) :
    ∀ acc, NormSegs r acc → NormSegs r (popSegs r acc xs) := by
  induction xs with
  | nil => exact fun acc h => h
  | cons seg rest ih =>
    intro acc h
    obtain ⟨k, tail, heq, hdd, hk⟩ := h
    simp only [popSegs]
    split_ifs with h1 h2 h3
    · refine ih _ ⟨0, acc.dropLast, by simp, ?_, fun _ => rfl⟩
      have hk0 : k = 0 := hk h2
      intro hmem
      exact hdd (by simpa [heq, hk0] using List.dropLast_subset acc hmem)
    · refine ih _ ?_
      have hr : r = false := Bool.not_eq_true r ▸ eq_false_of_ne_true h2
      rcases h3 with h3 | h3
      · exact ⟨1, [], by simp [h3, List.replicate], by simp, fun hrt => absurd hrt h2⟩
      · have ht : tail = [] := by
          by_contra ht
          have hlast : acc.getLast? = tail.getLast? := by
            rw [heq]
            exact List.getLast?_append_of_ne_nil _ ht
          rw [h3] at hlast
          exact hdd (List.mem_of_getLast?_eq_some hlast.symm)
        refine ⟨k + 1, [], ?_, by simp, fun hrt => absurd hrt h2⟩
        rw [heq, ht, List.append_nil, List.append_nil, List.replicate_succ']
    · push_neg at h3
      obtain ⟨hne, hlast⟩ := h3
      have ht : tail ≠ [] := by
        intro ht
        rw [ht, List.append_nil] at heq
        cases k with
        | zero => exact hne (by simpa using heq)
        | succ k2 => exact hlast (heq ▸ getLast?_replicate_dd k2)
      refine ih _ ⟨k, tail.dropLast, ?_, ?_, hk⟩
      · rw [heq, List.dropLast_append_of_ne_nil _ ht]
      · exact fun hmem => hdd (List.dropLast_subset tail hmem)
    · refine ih _ ⟨k, tail ++ [seg], by rw [heq, List.append_assoc], ?_, hk⟩
      intro hmem
      rcases List.mem_append.mp hmem with hm | hm
      · exact hdd hm
      · exact h1 (List.mem_singleton.mp hm).symm

theorem popSegs_replicate (j : Nat) :
    ∀ i, popSegs false (List.replicate i dd) (List.replicate j dd) =
      List.replicate (i + j) dd := by
  induction j with
  | zero => intro i; simp [popSegs]
  | succ j2 ih =>
    intro i
    have hcond : List.replicate i dd = [] ∨ (List.replicate i dd).getLast? = some dd := by
      cases i with
      | zero => exact Or.inl rfl
      | succ i2 => exact Or.inr (getLast?_replicate_dd i2)
    rw [List.replicate_succ]
    simp only [popSegs, Bool.false_eq_true, if_false, if_pos rfl, if_pos hcond]
    rw [← List.replicate_succ']
    rw [ih (i + 1)]
    rw [show i + 1 + j2 = i + (j2 + 1) from by omega]
    simp

theorem popSegs_fix {r : Bool} {segs : List GoStr} (h : NormSegs r segs) :
    popSegs r [] segs = segs := by
  obtain ⟨k, tail, heq, hdd, hk⟩ := h
  subst heq
  rw [popSegs_append]
  have h1 : popSegs r [] (List.replicate k dd) = List.replicate k dd := by
    cases r with
    | true =>
      rw [hk rfl]
      rfl
    | false => simpa using popSegs_replicate k 0
  rw [h1, popSegs_no_dd r hdd]

/-! ### Rendering and re-parsing cleaned paths -/

theorem isRooted_append {a : GoStr} (b : GoStr) (h : a ≠ []) :
    isRooted (a ++ b) = isRooted a := by
  cases a with
  | nil => exact absurd rfl h
  | cons c rest => rfl

theorem isRooted_interSegs_cons {s : GoStr} (ss : List GoStr) (h1 : s ≠ [])
    (h2 : '/' ∉ s) : isRooted (interSegs (s :: ss)) = false := by
  have hhead : ∀ t, isRooted (s ++ t) = false := by
    intro t
    rw [isRooted_append t h1]
    cases s with
    | nil => exact absurd rfl h1
    | cons c rest =>
      have hc : c ≠ '/' := fun hh => h2 (hh ▸ List.mem_cons_self c rest)
      simp [isRooted, hc]
  cases ss with
  | nil => simpa using hhead []
  | cons t ts =>
    rw [interSegs_cons s (by simp)]
    exact hhead _

theorem isRooted_renderPath (r : Bool) (segs : List GoStr)
    (h : ∀ seg ∈ segs, wfSeg seg) : isRooted (renderPath r segs) = r := by
  cases r with
  | true => simp [renderPath, isRooted]
  | false =>
    cases segs with
    | nil => simp [renderPath, isRooted]
    | cons s ss =>
      have hw := h s (List.mem_cons_self s ss)
      simp only [renderPath, Bool.false_eq_true, if_false, if_neg (by simp : ¬s :: ss = [])]
      exact isRooted_interSegs_cons ss hw.1 hw.2.1

theorem fsegs_interSegs (segs : List GoStr) (h : ∀ seg ∈ segs, wfSeg seg) :
    fsegs (interSegs segs) = segs := by
  induction segs with
  | nil => rfl
  | cons s ss ih =>
    have hw := h s (List.mem_cons_self s ss)
    have hne : s.isEmpty = false := by
      cases s with
      | nil => exact absurd rfl hw.1
      | cons a b => rfl
    have hsingle : fsegs s = [s] := by
      rw [fsegs, splitSegs_no_slash hw.2.1]
      have hkeep : segKeep s = true := by simp [segKeep, hne, hw.2.2]
      simp [hkeep]
    cases ss with
    | nil => simpa [interSegs] using hsingle
    | cons t ts =>
      rw [interSegs_cons s (by simp), fsegs_append, hsingle,
        ih (fun seg hm => h seg (List.mem_cons_of_mem s hm))]
      rfl

theorem fsegs_renderPath (r : Bool) (segs : List GoStr)
    (h : ∀ seg ∈ segs, wfSeg seg) : fsegs (renderPath r segs) = segs := by
  cases r with
  | true =>
    show fsegs ('/' :: interSegs segs) = segs
    have h0 : fsegs (([] : GoStr) ++ '/' :: interSegs segs) =
        fsegs ([] : GoStr) ++ fsegs (interSegs segs) := fsegs_append [] (interSegs segs)
    simp only [List.nil_append] at h0
    rw [h0, fsegs_interSegs segs h]
    rfl
  | false =>
    cases segs with
    | nil => rfl
    | cons s ss =>
      show fsegs (interSegs (s :: ss)) = s :: ss
      exact fsegs_interSegs _ h

theorem wf_cleanSegs {s seg : GoStr} (h : seg ∈ cleanSegs s) : wfSeg seg := by
  rcases mem_popSegs h with hm | hm | hm
  · simp at hm
  · exact mem_fsegs_wf hm
  · exact hm ▸ ⟨by decide, by decide, by decide⟩

theorem normSegs_cleanSegs (s : GoStr) : NormSegs (isRooted s) (cleanSegs s) :=
  normSegs_popSegs _ _ [] (normSegs_nil _)

theorem isRooted_cleanPath (s : GoStr) : isRooted (cleanPath s) = isRooted s := by
  by_cases hs : s = []
  · subst hs; decide
  · rw [cleanPath, if_neg hs]
    exact isRooted_renderPath _ _ (fun seg hm => wf_cleanSegs hm)

theorem cleanPath_eq_render {s : GoStr} (hs : s ≠ []) :
    cleanPath s = renderPath (isRooted s) (cleanSegs s) := by
  rw [cleanPath, if_neg hs]
  rfl

theorem cleanSegs_cleanPath (s : GoStr) : cleanSegs (cleanPath s) = cleanSegs s := by
  by_cases hs : s = []
  · subst hs; rfl
  · have hwf : ∀ seg ∈ cleanSegs s, wfSeg seg := fun seg hm => wf_cleanSegs hm
    rw [cleanPath_eq_render hs]
    show popSegs (isRooted (renderPath (isRooted s) (cleanSegs s))) []
      (fsegs (renderPath (isRooted s) (cleanSegs s))) = cleanSegs s
    rw [isRooted_renderPath _ _ hwf, fsegs_renderPath _ _ hwf]
    exact popSegs_fix (normSegs_cleanSegs s)

/-! ### Joining under a root -/

theorem cleanSegs_concat {a b : GoStr} (ha : a ≠ []) (hb : dd ∉ fsegs b) :
    cleanSegs (a ++ '/' :: b) = cleanSegs a ++ fsegs b := by
  show popSegs (isRooted (a ++ '/' :: b)) [] (fsegs (a ++ '/' :: b)) = cleanSegs a ++ fsegs b
  rw [isRooted_append _ ha, fsegs_append, popSegs_append]
  exact popSegs_no_dd _ hb _

theorem joinPath_eq {a : GoStr} (b : GoStr) (ha : a ≠ []) :
    joinPath a b = cleanPath (a ++ '/' :: b) := by
  rw [joinPath, if_neg ha]

theorem underRoot_joinPath {a b : GoStr} (ha : a ≠ []) (hb : Contains b dd = false) :
    underRoot a (joinPath a b) = true := by
  rw [joinPath_eq b ha]
  simp only [underRoot, isRooted_cleanPath, cleanSegs_cleanPath, isRooted_append _ ha,
    cleanSegs_concat ha (dd_not_mem_fsegs hb), beq_self_eq_true, Bool.true_and]
  rw [List.isPrefixOf_iff_prefix]
  exact List.prefix_append _ _

theorem renderPath_append (r : Bool) {ss ys : List GoStr} (h1 : ss ≠ []) (h2 : ys ≠ []) :
    renderPath r (ss ++ ys) = renderPath r ss ++ '/' :: interSegs ys := by
  cases r with
  | true => simp [renderPath, interSegs_append h1 h2]
  | false =>
    have hss : ss ++ ys ≠ [] := fun hh => h1 (List.append_eq_nil.mp hh).1
    simp only [renderPath, Bool.false_eq_true, if_false, if_neg hss, if_neg h1]
    exact interSegs_append h1 h2

theorem cleanSegs_ne_nil {R : GoStr} (hc : cleanPath R = R) (h0 : R ≠ [])
    (h1 : R ≠ ['.']) (h2 : R ≠ ['/']) : cleanSegs R ≠ [] := by
  intro hnil
  rw [cleanPath_eq_render h0, hnil] at hc
  cases hr : isRooted R with
  | true =>
    rw [hr] at hc
    exact h2 hc.symm
  | false =>
    rw [hr] at hc
    exact h1 hc.symm

theorem joinPath_concat {R b : GoStr} (hc : cleanPath R = R) (h0 : R ≠ [])
    (h1 : R ≠ ['.']) (h2 : R ≠ ['/']) (hdd : dd ∉ fsegs b) (hfb : fsegs b ≠ [])
    (hib : interSegs (fsegs b) = b) : joinPath R b = R ++ '/' :: b := by
  have hne : R ++ '/' :: b ≠ [] := fun hh => h0 (List.append_eq_nil.mp hh).1
  rw [joinPath_eq b h0, cleanPath_eq_render hne, isRooted_append _ h0,
    cleanSegs_concat h0 hdd, renderPath_append _ (cleanSegs_ne_nil hc h0 h1 h2) hfb, hib,
    ← cleanPath_eq_render h0, hc]

/-- Containment with a separator: `dir ++ "/"` leads `val` exactly when
`dir` leads `val` and the next character is the separator. -/
theorem prefix_with_sep {dir val : GoStr} :
    dir ++ ['/'] <+: val ↔ dir <+: val ∧ ['/'] <+: val.drop dir.length := by
  constructor
  · rintro ⟨t, ht⟩
    refine ⟨⟨'/' :: t, by rw [← ht]; simp⟩, ?_⟩
    rw [← ht, List.append_assoc, List.drop_left]
    exact ⟨t, rfl⟩
  · rintro ⟨⟨t, ht⟩, h2⟩
    obtain ⟨u, hu⟩ := h2
    have hdrop : val.drop dir.length = t := by
      rw [← ht]
      exact List.drop_left dir t
    rw [hdrop] at hu
    exact ⟨u, by rw [← ht, ← hu]; simp⟩

/-! ### Reduction helpers for resolution and serving -/

theorem resolve_rejected {dir : Dir} {req : Request}
    (hcond : (Contains (TrimPrefix req.urlPath ['/']) dd
      || HasSuffix (TrimPrefix req.urlPath ['/']) ['/']) = true) :
    dir.Resolve req = dir.File [] := by
  simp [Dir.Resolve, hcond]

theorem resolve_accepted {dir : Dir} {req : Request}
    (hcond : (Contains (TrimPrefix req.urlPath ['/']) dd
      || HasSuffix (TrimPrefix req.urlPath ['/']) ['/']) = false)
    (hallow : dir.Allow (joinPath dir.Path (TrimPrefix req.urlPath ['/'])) = true) :
    dir.Resolve req = dir.File (joinPath dir.Path (TrimPrefix req.urlPath ['/'])) := by
  simp [Dir.Resolve, hcond, hallow]

theorem resolve_denied {dir : Dir} {req : Request}
    (hcond : (Contains (TrimPrefix req.urlPath ['/']) dd
      || HasSuffix (TrimPrefix req.urlPath ['/']) ['/']) = false)
    (hallow : dir.Allow (joinPath dir.Path (TrimPrefix req.urlPath ['/'])) = false) :
    dir.Resolve req = dir.File [] := by
  simp [Dir.Resolve, hcond, hallow]

theorem serve_notfound {f : Goh.File} {fs : FS} (rw : RW) (h : f.Exists fs = false) :
    f.ServeHTTP fs rw = rw.writeHeader 404 := by
  simp [File.ServeHTTP, h, NotFound.ServeHTTP]

theorem exists_of_file {f : Goh.File} {fs : FS} {content : GoStr}
    (hne : f.Path ≠ []) (hf : fs f.Path = some (Entry.file content)) :
    f.Exists fs = true := by
  simp [File.Exists, fileExists, if_neg hne, hf]

theorem writeHeader_writeHeader (rw : RW) (s t : Nat) :
    (rw.writeHeader s).writeHeader t = rw.writeHeader s := by
  cases h : rw.status <;> simp [RW.writeHeader, h]

theorem writeHeader_header (rw : RW) (s : Nat) : (rw.writeHeader s).header = rw.header := by
  cases h : rw.status <;> simp [RW.writeHeader, h]

theorem writeHeader_body (rw : RW) (s : Nat) : (rw.writeHeader s).body = rw.body := by
  cases h : rw.status <;> simp [RW.writeHeader, h]

theorem serve_file {f : Goh.File} {fs : FS} {content : GoStr} (rw : RW)
    (hne : f.Path ≠ []) (hf : fs f.Path = some (Entry.file content)) :
    f.ServeHTTP fs rw =
      RW.write (writeHead.run ⟨f.Status, f.Header, "", 0, false⟩ rw) content := by
  simp [File.ServeHTTP, exists_of_file hne hf, serveFile, hf, RW.write,
    writeHeader_writeHeader, writeHeader_header, writeHeader_body]

/-! ### The claims -/

/-- C1: for every `Dir` and request, if the request path with exactly one
leading separator stripped contains `..` anywhere or ends in a trailing
separator, `Dir.Resolve` returns the empty-path sentinel descriptor, which
does not exist under any filesystem and therefore serves not-found (a bare
404), regardless of the configured filter and of the filesystem state. -/
theorem c1_resolve_rejects_traversal (dir : Dir) (req : Request)
    (h : (Contains (TrimPrefix req.urlPath ['/']) dd
      || HasSuffix (TrimPrefix req.urlPath ['/']) ['/']) = true) :
    dir.Resolve req = dir.File [] ∧ (dir.Resolve req).Path = [] ∧
      (∀ fs : FS, (dir.Resolve req).Exists fs = false) ∧
      (∀ (fs : FS) (rw : RW), dir.ServeHTTP fs req rw = rw.writeHeader 404) := by
  have hres : dir.Resolve req = dir.File [] := by
    simp [Dir.Resolve, h]
  refine ⟨hres, by rw [hres]; rfl, fun fs => by rw [hres]; rfl, fun fs rw => ?_⟩
  rw [Dir.ServeHTTP, hres]
  have hex : (dir.File []).Exists fs = false := rfl
  simp [File.ServeHTTP, hex, NotFound.ServeHTTP]

/-- C1 witness: the request `/../secret` is rejected by a concrete `Dir`. -/
theorem c1_witness :
    (Dir.Resolve ⟨0, [], "static".data, none⟩ ⟨"/../secret".data⟩).Path = [] ∧
    (Dir.ServeHTTP ⟨0, [], "static".data, none⟩ (fun _ => none) ⟨"/../secret".data⟩
      ⟨[], none, []⟩) = RW.writeHeader ⟨[], none, []⟩ 404 :=
  ⟨(c1_resolve_rejects_traversal ⟨0, [], "static".data, none⟩ ⟨"/../secret".data⟩
      (by decide)).2.1,
    (c1_resolve_rejects_traversal ⟨0, [], "static".data, none⟩ ⟨"/../secret".data⟩
      (by decide)).2.2.2 _ _⟩

/-- C2: a `TryServe` on a descriptor whose file does not exist reports
false and leaves the sink untouched (header, status and body unchanged),
and `Dir.ServedHTTP` delegates to the descriptor `Resolve` produces, so it
inherits the guarantee. -/
theorem c2_tryserve_no_side_effects (fs : FS) (f : Goh.File) (dir : Dir)
    (req : Request) (rw : RW) :
    (f.Exists fs = false → f.ServedHTTP fs rw = (rw, false)) ∧
    dir.ServedHTTP fs req rw = (dir.Resolve req).ServedHTTP fs rw ∧
    ((dir.Resolve req).Exists fs = false → dir.ServedHTTP fs req rw = (rw, false)) := by
  refine ⟨fun h => ?_, rfl, fun h => ?_⟩
  · simp [File.ServedHTTP, h]
  · simp [Dir.ServedHTTP, File.ServedHTTP, h]

/-- C3: `AllowDirs.Allow` holds exactly when some listed directory,
followed immediately by the separator, leads the candidate path; with list
`{"one"}` the paths `one/` and `one/x` are allowed while `one` and
`onetwo` are not, and the empty list denies every path. -/
theorem c3_allowdirs_containment (dirs : List GoStr) (val : GoStr) :
    (AllowDirs.Allow dirs val = true ↔ ∃ dir ∈ dirs, dir ++ ['/'] <+: val) ∧
    AllowDirs.Allow ["one".data] ("one".data) = false ∧
    AllowDirs.Allow ["one".data] ("onetwo".data) = false ∧
    AllowDirs.Allow ["one".data] ("one/".data) = true ∧
    AllowDirs.Allow ["one".data] ("one/x".data) = true ∧
    AllowDirs.Allow [] val = false := by
  refine ⟨?_, by decide, by decide, by decide, by decide, rfl⟩
  rw [AllowDirs.Allow, List.any_eq_true]
  constructor
  · rintro ⟨dir, hmem, hsub⟩
    rw [isSubpath, Bool.and_eq_true, List.isPrefixOf_iff_prefix,
      List.isPrefixOf_iff_prefix] at hsub
    exact ⟨dir, hmem, prefix_with_sep.mpr hsub⟩
  · rintro ⟨dir, hmem, hpre⟩
    refine ⟨dir, hmem, ?_⟩
    rw [isSubpath, Bool.and_eq_true, List.isPrefixOf_iff_prefix,
      List.isPrefixOf_iff_prefix]
    exact prefix_with_sep.mp hpre

/-- C4: `File.Exists` holds exactly when the descriptor's path is
non-empty and the filesystem holds a non-directory entry there; with an
empty path the answer is false whatever the filesystem holds. -/
theorem c4_exists_characterisation (f : Goh.File) (fs : FS) :
    (f.Exists fs = true ↔
      f.Path ≠ [] ∧ ∃ e, fs f.Path = some e ∧ e ≠ Entry.dir) ∧
    (f.Path = [] → ∀ fs2 : FS, f.Exists fs2 = false) := by
  constructor
  · constructor
    · intro h
      simp only [File.Exists, fileExists] at h
      split_ifs at h with hp
      cases hfs : fs f.Path with
      | none => rw [hfs] at h; simp at h
      | some e =>
        cases e with
        | file c => exact ⟨hp, Entry.file c, hfs ▸ rfl, by simp⟩
        | dir => rw [hfs] at h; simp at h
    · rintro ⟨hp, e, hfs, hne⟩
      simp only [File.Exists, fileExists, if_neg hp, hfs]
      cases e with
      | file c => rfl
      | dir => exact absurd rfl hne
  · intro hp fs2
    simp only [File.Exists, fileExists, if_pos hp]

/-- C5: serving a descriptor whose file does not exist writes exactly the
404 status and nothing else: the header map and body are untouched, and
neither the configured `Header` nor the configured `Status` reaches the
sink. -/
theorem c5_notfound_is_bare_404 (f : Goh.File) (fs : FS) (rw : RW)
    (h : f.Exists fs = false) :
    f.ServeHTTP fs rw = rw.writeHeader 404 ∧
    (f.ServeHTTP fs rw).header = rw.header ∧
    (f.ServeHTTP fs rw).body = rw.body ∧
    (rw.status = none → (f.ServeHTTP fs rw).status = some 404) := by
  have hmain : f.ServeHTTP fs rw = rw.writeHeader 404 := by
    simp [File.ServeHTTP, h, NotFound.ServeHTTP]
  refine ⟨hmain, ?_, ?_, fun hst => ?_⟩ <;> rw [hmain]
  · cases hst : rw.status <;> simp [RW.writeHeader, hst]
  · cases hst : rw.status <;> simp [RW.writeHeader, hst]
  · simp [RW.writeHeader, hst]

/-- C5 witness: a descriptor with configured status 201 and a configured
header, pointed at a missing file, answers with a bare 404. -/
theorem c5_witness :
    File.ServeHTTP ⟨201, [("X-Custom", ["v"])], "missing.txt".data⟩ (fun _ => none)
        ⟨[], none, []⟩ = RW.writeHeader ⟨[], none, []⟩ 404 ∧
    (File.ServeHTTP ⟨201, [("X-Custom", ["v"])], "missing.txt".data⟩ (fun _ => none)
        ⟨[], none, []⟩).header = [] ∧
    (File.ServeHTTP ⟨201, [("X-Custom", ["v"])], "missing.txt".data⟩ (fun _ => none)
        ⟨[], none, []⟩).status = some 404 :=
  ⟨(c5_notfound_is_bare_404 _ _ _ (by decide)).1,
    (c5_notfound_is_bare_404 _ _ _ (by decide)).2.1,
    (c5_notfound_is_bare_404 ⟨201, [("X-Custom", ["v"])], "missing.txt".data⟩
      (fun _ => none) ⟨[], none, []⟩ (by decide)).2.2.2 rfl⟩

/-- C6: `Dir.Han` never hands out the nil handler, and `Dir.HanOpt` is nil
exactly when the descriptor `Resolve` produces does not exist (file
absent, a directory, or the request rejected by the traversal checks or
the filter, all of which surface as a non-existing descriptor). -/
theorem c6_han_total_hanopt_iff (dir : Dir) (fs : FS) (req : Request) :
    dir.Han fs req ≠ none ∧
    ((dir.Resolve req).Exists fs = false → dir.Han fs req = some Handler.notFound) ∧
    (dir.HanOpt fs req = none ↔ (dir.Resolve req).Exists fs = false) := by
  refine ⟨?_, fun hex => ?_, ?_⟩
  · rw [Dir.Han]
    cases dir.HanOpt fs req <;> simp
  · simp [Dir.Han, Dir.HanOpt, File.HanOpt, hex]
  · cases hex : (dir.Resolve req).Exists fs with
    | true => simp [Dir.HanOpt, File.HanOpt, hex]
    | false => simp [Dir.HanOpt, File.HanOpt, hex]

/-- C10: the shared head writer treats a configured status of 200 exactly
like the zero value: the explicit status write happens only when the
status is neither 0 nor 200, and `File.ServeHTTP` behaves identically
under the two configurations. -/
theorem c10_status_200_like_zero (wh : writeHead) (rw : RW) (fs : FS) (f : Goh.File) :
    writeHead.run { wh with status := 200 } rw = writeHead.run { wh with status := 0 } rw ∧
    ((wh.status = 0 ∨ wh.status = 200) → (writeHead.run wh rw).status = rw.status) ∧
    (wh.status ≠ 0 → wh.status ≠ 200 → rw.status = none →
      (writeHead.run wh rw).status = some wh.status) ∧
    File.ServeHTTP { f with Status := 200 } fs rw
      = File.ServeHTTP { f with Status := 0 } fs rw := by
  refine ⟨?_, fun h => ?_, fun h0 h200 hnone => ?_, ?_⟩
  · simp [writeHead.run]
  · rcases h with h | h <;> simp [writeHead.run, h]
  · simp [writeHead.run, h0, h200, RW.writeHeader, hnone]
  · have hw : writeHead.run ⟨200, f.Header, "", 0, false⟩ rw
        = writeHead.run ⟨0, f.Header, "", 0, false⟩ rw := by
      simp [writeHead.run]
    simp only [File.ServeHTTP, File.Exists]
    rw [hw]

/-- C7 counterexample: the claim as stated fails for root `static`. The
filter receives the joined path `static/public/readme.txt`, which does not
begin with the listed prefix `public` followed by a separator, so the
request for `/public/readme.txt` is denied: resolution yields the
empty-path sentinel and serving answers a bare 404 with no body, although
the file exists — not status 200 with the file's bytes. -/
theorem c7_counterexample :
    (Dir.Resolve ⟨0, [], "static".data, some (AllowDirs.Allow ["public".data])⟩
      ⟨"/public/readme.txt".data⟩).Path = [] ∧
    Dir.ServeHTTP ⟨0, [], "static".data, some (AllowDirs.Allow ["public".data])⟩
      (fun p => if p = "static/public/readme.txt".data
        then some (Entry.file "hello".data) else none)
      ⟨"/public/readme.txt".data⟩ ⟨[], none, []⟩ = ⟨[], some 404, []⟩ := by
  decide

/-- C7 corrected (amended claim): the access filter receives the joined
path, which begins with the root, so an allow-list admitting only the
public subtree must name `R/public`, not `public`. With a well-formed
cleaned root `R` and the filter `AllowDirs {R/public}`, a request for
`/public/readme.txt` (an existing regular file at `R/public/readme.txt`)
resolves to the descriptor at `R/public/readme.txt` and serves status 200
with the file's exact bytes on a fresh sink, while `/private/readme.txt`
resolves to the empty-path sentinel and serves a bare 404 even though
`R/private/readme.txt` exists. -/
theorem c7_amended (R content : GoStr) (fs : FS) (dir : Dir)
    (hdir : dir = ⟨0, [], R, some (AllowDirs.Allow [R ++ "/public".data])⟩)
    (hc : cleanPath R = R) (h0 : R ≠ []) (h1 : R ≠ ['.']) (h2 : R ≠ ['/'])
    (hpub : fs (R ++ "/public/readme.txt".data) = some (Entry.file content)) :
    (dir.Resolve ⟨"/public/readme.txt".data⟩).Path = R ++ "/public/readme.txt".data ∧
    dir.ServeHTTP fs ⟨"/public/readme.txt".data⟩ ⟨[], none, []⟩
      = ⟨[], some 200, [content]⟩ ∧
    (dir.Resolve ⟨"/private/readme.txt".data⟩).Path = [] ∧
    (∀ rw : RW, dir.ServeHTTP fs ⟨"/private/readme.txt".data⟩ rw = rw.writeHeader 404) := by
  subst hdir
  have hcond : (Contains (TrimPrefix (Request.mk "/public/readme.txt".data).urlPath ['/']) dd
      || HasSuffix (TrimPrefix (Request.mk "/public/readme.txt".data).urlPath ['/'])
        ['/']) = false := by decide
  have hstrip : TrimPrefix (Request.mk "/public/readme.txt".data).urlPath ['/']
      = "public/readme.txt".data := by decide
  have hjoin : joinPath R (TrimPrefix (Request.mk "/public/readme.txt".data).urlPath ['/'])
      = R ++ "/public/readme.txt".data := by
    rw [hstrip]
    exact joinPath_concat hc h0 h1 h2 (by decide) (by decide) (by decide)
  have hsplit : R ++ "/public/readme.txt".data
      = (R ++ "/public".data) ++ "/readme.txt".data := by
    rw [List.append_assoc]
    rfl
  have hallow0 : AllowDirs.Allow [R ++ "/public".data]
      (R ++ "/public/readme.txt".data) = true := by
    rw [AllowDirs.Allow, List.any_eq_true]
    refine ⟨R ++ "/public".data, List.mem_singleton.mpr rfl, ?_⟩
    rw [isSubpath, Bool.and_eq_true, List.isPrefixOf_iff_prefix,
      List.isPrefixOf_iff_prefix]
    constructor
    · rw [hsplit]
      exact List.prefix_append _ _
    · rw [hsplit, List.drop_left]
      exact ⟨"readme.txt".data, rfl⟩
  have hallow : (⟨0, [], R, some (AllowDirs.Allow [R ++ "/public".data])⟩ : Dir).Allow
      (joinPath R (TrimPrefix (Request.mk "/public/readme.txt".data).urlPath ['/']))
      = true := by
    show AllowDirs.Allow [R ++ "/public".data]
      (toSlash (joinPath R
        (TrimPrefix (Request.mk "/public/readme.txt".data).urlPath ['/']))) = true
    rw [toSlash, hjoin]
    exact hallow0
  have hres := resolve_accepted hcond hallow
  have hne2 : R ++ "/public/readme.txt".data ≠ [] := by
    cases R with
    | nil => exact absurd rfl h0
    | cons a b => simp
  have hfile : (⟨0, [], R, some (AllowDirs.Allow [R ++ "/public".data])⟩ : Dir).File
      (joinPath R (TrimPrefix (Request.mk "/public/readme.txt".data).urlPath ['/']))
      = (⟨0, [], R ++ "/public/readme.txt".data⟩ : Goh.File) := by
    rw [Dir.File, hjoin]
  -- the private request
  have hcondP : (Contains (TrimPrefix (Request.mk "/private/readme.txt".data).urlPath ['/']) dd
      || HasSuffix (TrimPrefix (Request.mk "/private/readme.txt".data).urlPath ['/'])
        ['/']) = false := by decide
  have hstripP : TrimPrefix (Request.mk "/private/readme.txt".data).urlPath ['/']
      = "private/readme.txt".data := by decide
  have hjoinP : joinPath R (TrimPrefix (Request.mk "/private/readme.txt".data).urlPath ['/'])
      = R ++ "/private/readme.txt".data := by
    rw [hstripP]
    exact joinPath_concat hc h0 h1 h2 (by decide) (by decide) (by decide)
  have hnp : (R ++ "/public".data).isPrefixOf (R ++ "/private/readme.txt".data) = false := by
    cases hb : (R ++ "/public".data).isPrefixOf (R ++ "/private/readme.txt".data) with
    | false => rfl
    | true =>
      rw [List.isPrefixOf_iff_prefix, List.prefix_append_right_inj] at hb
      exact absurd hb (by decide)
  have hallowP0 : AllowDirs.Allow [R ++ "/public".data]
      (R ++ "/private/readme.txt".data) = false := by
    rw [AllowDirs.Allow]
    simp only [List.any_cons, List.any_nil, Bool.or_false]
    rw [isSubpath, hnp]
    rfl
  have hallowP : (⟨0, [], R, some (AllowDirs.Allow [R ++ "/public".data])⟩ : Dir).Allow
      (joinPath R (TrimPrefix (Request.mk "/private/readme.txt".data).urlPath ['/']))
      = false := by
    show AllowDirs.Allow [R ++ "/public".data]
      (toSlash (joinPath R
        (TrimPrefix (Request.mk "/private/readme.txt".data).urlPath ['/']))) = false
    rw [toSlash, hjoinP]
    exact hallowP0
  have hresP := resolve_denied hcondP hallowP
  refine ⟨?_, ?_, ?_, fun rw => ?_⟩
  · rw [hres]
    show joinPath R (TrimPrefix (Request.mk "/public/readme.txt".data).urlPath ['/'])
      = R ++ "/public/readme.txt".data
    exact hjoin
  · rw [Dir.ServeHTTP, hres, hfile, serve_file _ hne2 hpub]
    rfl
  · rw [hresP]
    rfl
  · rw [Dir.ServeHTTP, hresP]
    exact serve_notfound rw rfl

/-- C7 witness: the amended claim at the concrete root `static` with a
two-file filesystem. -/
theorem c7_witness :
    (Dir.Resolve ⟨0, [], "static".data,
        some (AllowDirs.Allow ["static".data ++ "/public".data])⟩
      ⟨"/public/readme.txt".data⟩).Path
        = "static".data ++ "/public/readme.txt".data ∧
    Dir.ServeHTTP ⟨0, [], "static".data,
        some (AllowDirs.Allow ["static".data ++ "/public".data])⟩
      (fun p => if p = "static/public/readme.txt".data
        then some (Entry.file "hello".data)
        else if p = "static/private/readme.txt".data
          then some (Entry.file "secret".data) else none)
      ⟨"/public/readme.txt".data⟩ ⟨[], none, []⟩ = ⟨[], some 200, ["hello".data]⟩ ∧
    (Dir.Resolve ⟨0, [], "static".data,
        some (AllowDirs.Allow ["static".data ++ "/public".data])⟩
      ⟨"/private/readme.txt".data⟩).Path = [] :=
  have h := c7_amended ("static".data) ("hello".data)
    (fun p => if p = "static/public/readme.txt".data
      then some (Entry.file "hello".data)
      else if p = "static/private/readme.txt".data
        then some (Entry.file "secret".data) else none)
    ⟨0, [], "static".data, some (AllowDirs.Allow ["static".data ++ "/public".data])⟩
    rfl (by decide) (by decide) (by decide) (by decide) (by decide)
  ⟨h.1, h.2.1, h.2.2.1⟩

/-- C8 counterexample: the claim as stated fails when `Dir.Path` itself
names a regular file. With root `r` a regular file, the request `/` strips
to the empty path, joins back to `r`, and serving streams exactly the
entry at `Dir.Path` — status 200 with its contents. -/
theorem c8_counterexample :
    (Dir.Resolve ⟨0, [], "r".data, none⟩ ⟨"/".data⟩).Path = "r".data ∧
    Dir.ServeHTTP ⟨0, [], "r".data, none⟩
      (fun p => if p = "r".data then some (Entry.file "secret".data) else none)
      ⟨"/".data⟩ ⟨[], none, []⟩ = ⟨[], some 200, ["secret".data]⟩ := by
  decide

/-- C8 corrected (amended claim): provided the filesystem entry at
`Dir.Path` is a directory or absent — the intended configuration, where
the root names a directory — the entry at exactly `Dir.Path` is never
streamed: a resolved descriptor that exists never carries the root as its
path, and whenever resolution lands exactly on the root path, serving
answers a bare 404. Without that proviso the claim fails (see the
counterexample, where the root is a regular file and `/` streams it). -/
theorem c8_amended (dir : Dir) (fs : FS) (req : Request) (rw : RW)
    (h : fs dir.Path = some Entry.dir ∨ fs dir.Path = none) :
    ((dir.Resolve req).Exists fs = true → (dir.Resolve req).Path ≠ dir.Path) ∧
    ((dir.Resolve req).Path = dir.Path →
      dir.ServeHTTP fs req rw = rw.writeHeader 404) := by
  have hroot : fileExists fs dir.Path = false := by
    rw [fileExists]
    split_ifs with hp
    · rfl
    · rcases h with h | h <;> rw [h]
  constructor
  · intro he hpe
    rw [File.Exists, hpe, hroot] at he
    exact Bool.false_ne_true he
  · intro hpe
    have hex : (dir.Resolve req).Exists fs = false := by
      rw [File.Exists, hpe]
      exact hroot
    rw [Dir.ServeHTTP]
    exact serve_notfound rw hex

/-- C8 witness: with the root `static` a directory in the filesystem, the
request `/` resolves exactly to the root path and serving answers 404
rather than streaming the root entry. -/
theorem c8_witness :
    (Dir.Resolve ⟨0, [], "static".data, none⟩ ⟨"/".data⟩).Path = "static".data ∧
    Dir.ServeHTTP ⟨0, [], "static".data, none⟩
      (fun p => if p = "static".data then some Entry.dir else none) ⟨"/".data⟩
      ⟨[], none, []⟩ = RW.writeHeader ⟨[], none, []⟩ 404 :=
  ⟨by decide,
    (c8_amended ⟨0, [], "static".data, none⟩
      (fun p => if p = "static".data then some Entry.dir else none) ⟨"/".data⟩
      ⟨[], none, []⟩ (Or.inl (by decide))).2 (by decide)⟩

/-- C9 counterexample: the claim as stated fails for an empty root path.
Platform join drops empty elements, so a stripped request path that is
absolute escapes entirely: the request `//etc/passwd` (one leading
separator stripped leaves `/etc/passwd`) resolves to the non-empty
absolute path `/etc/passwd`, which is rooted while the empty root's
cleaned tree is not — the resolved path does not stay within the root
directory tree. -/
theorem c9_counterexample :
    (Dir.Resolve ⟨0, [], [], none⟩ ⟨"//etc/passwd".data⟩).Path = "/etc/passwd".data ∧
    underRoot [] (Dir.Resolve ⟨0, [], [], none⟩ ⟨"//etc/passwd".data⟩).Path = false := by
  decide

/-- C9 corrected (amended claim): for every `Dir` with a non-empty root
path and every request that resolution does not reject (the resolved path
is non-empty), the produced descriptor's path equals the platform join of
the root with the stripped request path, and it stays within the root
directory tree: it keeps the root's rootedness and the cleaned segments
of the root lead its own cleaned segments — for all request strings,
including those with repeated leading separators or redundant `.`
segments, because a `..`-free relative part can never pop the root's
segments. With an empty root the claim fails (see the counterexample). -/
theorem c9_amended (dir : Dir) (req : Request) (h0 : dir.Path ≠ [])
    (hne : (dir.Resolve req).Path ≠ []) :
    (dir.Resolve req).Path = joinPath dir.Path (TrimPrefix req.urlPath ['/']) ∧
    underRoot dir.Path (dir.Resolve req).Path = true := by
  cases hcond : (Contains (TrimPrefix req.urlPath ['/']) dd
      || HasSuffix (TrimPrefix req.urlPath ['/']) ['/']) with
  | true =>
    rw [resolve_rejected hcond] at hne
    exact absurd rfl hne
  | false =>
    have hcond2 := hcond
    simp only [Bool.or_eq_false_iff] at hcond2
    cases hallow : dir.Allow (joinPath dir.Path (TrimPrefix req.urlPath ['/'])) with
    | false =>
      rw [resolve_denied hcond hallow] at hne
      exact absurd rfl hne
    | true =>
      rw [resolve_accepted hcond hallow]
      refine ⟨rfl, ?_⟩
      show underRoot dir.Path
        (joinPath dir.Path (TrimPrefix req.urlPath ['/'])) = true
      exact underRoot_joinPath h0 hcond2.1

/-- C9 witness: the amended claim at root `static` for a request with a
repeated leading separator and a redundant `.` segment. -/
theorem c9_witness :
    (Dir.Resolve ⟨0, [], "static".data, none⟩ ⟨"//a/./b".data⟩).Path
      = joinPath "static".data (TrimPrefix "//a/./b".data ['/']) ∧
    underRoot "static".data
      (Dir.Resolve ⟨0, [], "static".data, none⟩ ⟨"//a/./b".data⟩).Path = true :=
  c9_amended ⟨0, [], "static".data, none⟩ ⟨"//a/./b".data⟩ (by decide) (by decide)

end Goh
